import Mathlib

/-!
cidrCountry: country lookup by CIDR containment.

A shallow embedding of `main.go`: the startup build (a `filepath.Walk` over
`./cidr/ipv4` that feeds every line of every file to `net.ParseCIDR` and
inserts the result into a `cidranger.Ranger`) and the HTTP handler `API.Get`.

Go strings are modelled as `String` / `List Char`; the functions of the Go
standard library and of `cidranger` that `main.go` calls are either modelled
from their documented behaviour or taken as parameters (`Env`, `RangerImpl`).
-/

namespace CidrCountry

/-! ## Label derivation (`main.go` line 115) -/

/-- Modelled from the spec: `os.IsPathSeparator` of the Go standard library on
Unix, where the only separator is the slash. -/
def isPathSeparator (c : Char) : Bool := c = '/'

/-- Backward scan of `filepath.Ext`: the first argument is the part of the path
not yet visited, last character first; the second is the part already
visited, in path order. -/
def extScan : List Char → List Char → List Char
  | [], _ => []
  | c :: rest, acc =>
    if isPathSeparator c then []
    else if c = '.' then c :: acc
    else extScan rest (c :: acc)

/-- Modelled from the spec: `filepath.Ext` of the Go standard library, the
suffix beginning at the final dot in the final element of the path, empty if
there is no dot. The loop runs from the last character towards the first and
stops at a path separator. -/
def Ext (path : List Char) : List Char := extScan path.reverse []

/-- Modelled from the spec: `filepath.Base` of the Go standard library, the last
element of the path. Trailing separators are removed first; an empty path
gives `.` and a path of separators only gives a single separator. -/
def Base (path : List Char) : List Char :=
  if path = [] then ['.']
  else
    let stripped := path.reverse.dropWhile isPathSeparator
    let last := (stripped.takeWhile (fun c => !isPathSeparator c)).reverse
    if last = [] then ['/'] else last

/-- Loop of `strings.TrimRight` on the reversed string: drop characters while
they occur in the cutset. -/
def trimScan (cutset : List Char) : List Char → List Char
  | [] => []
  | c :: rest => if c ∈ cutset then trimScan cutset rest else c :: rest

/-- Modelled from the spec: `strings.TrimRight` of the Go standard library, the
string with all trailing characters contained in the cutset removed (a
character trim, the cutset is a set of characters and not a suffix). -/
def TrimRight (s cutset : List Char) : List Char :=
  (trimScan cutset s.reverse).reverse

/-- The label expression of line 115:
`strings.TrimRight(filepath.Base(path), filepath.Ext(path))`. -/
def label (path : String) : String :=
  String.mk (TrimRight (Base path.toList) (Ext path.toList))

/-! ## Data model -/

/-- Address family of the spec's data model. -/
inductive Family where
  | v4
  | v6
deriving DecidableEq

/-- Width of an address of the family, in bits. -/
def Family.bits : Family → Nat
  | .v4 => 32
  | .v6 => 128

/-- Modelled from the spec: `net.IP` of the Go standard library, as the
IPAddress of the spec: a family and the address as a number of
`family.bits` bits, most significant bit first. -/
structure IP where
  family : Family
  value : Nat
deriving DecidableEq

/-- Modelled from the spec: `net.IPNet` of the Go standard library, as the
NetworkPrefix of the spec's data model: a family, a base address and a
prefix length (the number of leading one bits of the mask). -/
structure IPNet where
  family : Family
  base : Nat
  ones : Nat
deriving DecidableEq

/-- The struct `customRangerEntry` (lines 21-24). -/
structure customRangerEntry where
  ipNet : IPNet
  country : String
deriving DecidableEq

/-- The interface `cidranger.RangerEntry`: either the `*customRangerEntry` of
this program or some other implementation, of which only the network is
visible. The type assertion of line 151 succeeds on the first kind only. -/
inductive RangerEntry where
  | custom (b : customRangerEntry)
  | other (network : IPNet)
deriving DecidableEq

/-- The struct `Match` (lines 58-61). -/
structure Match where
  Country : String
  Net : String
deriving DecidableEq

/-- The struct `Items` (lines 53-56). -/
structure Items where
  Match : List Match
  Status : String
deriving DecidableEq

/-- Functions of the Go standard library that `main.go` calls and whose
source is not part of the repository. `ParseIP` and `ParseCIDR` give `none`
where the Go functions give a nil result (for `ParseCIDR`, a nil `*IPNet`
together with a non-nil error); `IPNetString` is `net.IPNet.String`;
`Marshal` is `json.Marshal` on an `Items` value. -/
structure Env where
  ParseIP : String → Option IP
  ParseCIDR : String → Option IPNet
  IPNetString : IPNet → String
  Marshal : Items → Except String String

/-- The interface `cidranger.Ranger`, as far as `main.go` uses it, over a
type of index states. The error that `Insert` returns is dropped by the
caller (line 115), so `Insert` is a state update. -/
structure RangerImpl (ρ : Type) where
  NewPCTrieRanger : ρ
  Insert : ρ → RangerEntry → ρ
  ContainingNetworks : ρ → Option IP → Except String (List RangerEntry)

/-- The struct `API` (lines 49-51). -/
structure API (ρ : Type) where
  Ranger : ρ
deriving DecidableEq

/-- Method `Network` (lines 27-29). -/
def customRangerEntry.Network (b : customRangerEntry) : IPNet := b.ipNet

/-- Method `NetworkStr` (lines 32-34). -/
def customRangerEntry.NetworkStr (env : Env) (b : customRangerEntry) : String :=
  env.IPNetString b.ipNet

/-- Method `Country` (lines 37-39). -/
def customRangerEntry.Country (b : customRangerEntry) : String := b.country

/-- Constructor `newCustomRangerEntry` (lines 42-47). -/
def newCustomRangerEntry (ipNet : IPNet) (country : String) : RangerEntry :=
  .custom { ipNet := ipNet, country := country }

/-- The interface method `RangerEntry.Network`. -/
def RangerEntry.Network : RangerEntry → IPNet
  | .custom b => b.Network
  | .other network => network

/-! ## The handler `API.Get` (lines 141-170) -/

/-- What a handler has done to its `http.ResponseWriter`: the status code
once the header is written, and the chunks written to the body in order. -/
structure ResponseWriter where
  status : Option Nat
  body : List String
deriving DecidableEq

/-- A response writer nothing has been written to. -/
def ResponseWriter.fresh : ResponseWriter := { status := none, body := [] }

/-- One `Write` to the response, as `fmt.Fprint(w, s)` performs: the first
write sends the header with status 200 if none was sent before. -/
def ResponseWriter.Write (w : ResponseWriter) (s : String) : ResponseWriter :=
  { status := some (w.status.getD 200), body := w.body ++ [s] }

/-- The helper `http.Error`: sends the header with the given code and
writes the message followed by a newline. -/
def httpError (w : ResponseWriter) (msg : String) (code : Nat) : ResponseWriter :=
  { status := some (w.status.getD code), body := w.body ++ [msg ++ "\n"] }

/-- How a call of the handler ends: it returns, or the process ends through
`os.Exit` with a status code after printing a line to standard output. Both
cases carry the state of the response writer at that point. -/
inductive Outcome where
  | returned (w : ResponseWriter)
  | exited (w : ResponseWriter) (code : Nat) (stdout : String)
deriving DecidableEq

/-- The loop of lines 150-169 over the entries, with `result` the value of
the variable of line 149. An entry that is not a `*customRangerEntry` is
passed over (`continue`); at the first one that is, the match is appended,
the result is marshalled and written (or the marshalling error is reported
with status 500), and the handler returns from inside the loop. -/
def getLoop (env : Env) (w : ResponseWriter) (result : Items) :
    List RangerEntry → ResponseWriter
  | [] => w
  | .other _ :: rest => getLoop env w result rest
  | .custom entry :: _ =>
    let n := entry.NetworkStr env
    let a := entry.Country
    let result : Items :=
      { Status := "200", Match := result.Match ++ [{ Country := a, Net := n }] }
    match env.Marshal result with
    | .error error => httpError w error 500
    | .ok outgoingJSON => w.Write outgoingJSON

/-- The handler `API.Get`; `ip` is the path variable `mux.Vars(r)["ip"]`. -/
def API.Get {ρ : Type} (env : Env) (R : RangerImpl ρ) (Api : API ρ)
    (w : ResponseWriter) (ip : String) : Outcome :=
  match R.ContainingNetworks Api.Ranger (env.ParseIP ip) with
  | .error err => .exited w 1 ("Api.Ranger.Contains() " ++ err ++ "\n")
  | .ok entries => .returned (getLoop env w { Match := [], Status := "" } entries)

/-! ## The containment index -/

/-- Bit `i` of a `width`-bit address, counted from the most significant bit. -/
def bitAt (width value i : Nat) : Bool := Nat.testBit value (width - 1 - i)

/-- The first `n` bits of a `width`-bit address, most significant first. -/
def keyBits (width value n : Nat) : List Bool :=
  (List.range n).map (bitAt width value)

/-- Modelled from the spec: the trie of the containment index (the
`cidranger` package is not part of the repository). A binary trie keyed by
address bits; every node holds the entries whose prefix ends there. -/
inductive Trie where
  | leaf
  | node (entries : List RangerEntry) (zero one : Trie)
deriving DecidableEq

/-- Modelled from the spec: insertion into the trie of `cidranger`, which is
not part of the repository: walk and extend the path given by the bits of
the prefix; the final node of the path accumulates the entry. -/
def Trie.insert : Trie → List Bool → RangerEntry → Trie
  | .leaf, [], e => .node [e] .leaf .leaf
  | .node es z o, [], e => .node (es ++ [e]) z o
  | .leaf, b :: bs, e =>
    if b then .node [] .leaf (Trie.insert .leaf bs e)
    else .node [] (Trie.insert .leaf bs e) .leaf
  | .node es z o, b :: bs, e =>
    if b then .node es z (Trie.insert o bs e)
    else .node es (Trie.insert z bs e) o

/-- Modelled from the spec: the containment walk of `cidranger`, which is not
part of the repository: descend from the root along the bits of the
address, collecting the entries of every node visited, until the path ends
or the bits are exhausted. -/
def Trie.query : Trie → List Bool → List RangerEntry
  | .leaf, _ => []
  | .node es _ _, [] => es
  | .node es z o, b :: bs => es ++ (if b then Trie.query o bs else Trie.query z bs)

/-- Modelled from the spec: the ContainmentIndex, the state of the ranger that
`cidranger.NewPCTrieRanger` returns (not part of the repository): one trie
per address family. -/
structure ContainmentIndex where
  v4 : Trie
  v6 : Trie
deriving DecidableEq

/-- Modelled from the spec: the empty index of `cidranger.NewPCTrieRanger`. -/
def ContainmentIndex.empty : ContainmentIndex := { v4 := .leaf, v6 := .leaf }

/-- The trie of one family. -/
def ContainmentIndex.trie (idx : ContainmentIndex) : Family → Trie
  | .v4 => idx.v4
  | .v6 => idx.v6

/-- Modelled from the spec: `insert` of the ContainmentIndex (`Ranger.Insert`
of `cidranger`, not part of the repository): the entry goes into the trie of
its family under the first `ones` bits of its base address. -/
def ContainmentIndex.insert (idx : ContainmentIndex) (e : RangerEntry) :
    ContainmentIndex :=
  let n := e.Network
  match n.family with
  | .v4 => { idx with v4 := idx.v4.insert (keyBits Family.v4.bits n.base n.ones) e }
  | .v6 => { idx with v6 := idx.v6.insert (keyBits Family.v6.bits n.base n.ones) e }

/-- Modelled from the spec: `containingNetworks` of the ContainmentIndex
(`Ranger.ContainingNetworks` of `cidranger`, not part of the repository): a
malformed (nil) address fails with InvalidAddress; otherwise the query is
routed to the trie of the address's family and walks all its bits. -/
def ContainmentIndex.containingNetworks (idx : ContainmentIndex) :
    Option IP → Except String (List RangerEntry)
  | none => .error "invalid address"
  | some a =>
    .ok ((idx.trie a.family).query (keyBits a.family.bits a.value a.family.bits))

/-- Modelled from the spec: the ranger of `cidranger.NewPCTrieRanger`, built on
the ContainmentIndex. -/
def pcTrieRanger : RangerImpl ContainmentIndex where
  NewPCTrieRanger := ContainmentIndex.empty
  Insert := ContainmentIndex.insert
  ContainingNetworks := ContainmentIndex.containingNetworks

/-- The range test of the spec's glossary, as arithmetic: the address and
the base of the prefix share their top `ones` bits, that is, they agree
after the `bits - ones` host bits are shifted out. -/
def IPNet.Contains (n : IPNet) (a : IP) : Bool :=
  n.family = a.family ∧
    (a.value % 2 ^ n.family.bits) / 2 ^ (n.family.bits - n.ones) =
      (n.base % 2 ^ n.family.bits) / 2 ^ (n.family.bits - n.ones)

/-- The brute-force oracle of the spec: a linear scan over all inserted
entries, keeping those whose prefix contains the address. -/
def linearScan (inserted : List RangerEntry) (a : IP) : List RangerEntry :=
  inserted.filter (fun e => e.Network.Contains a)

/-- The index after inserting the given entries, in order, into an empty one. -/
def indexOf (inserted : List RangerEntry) : ContainmentIndex :=
  inserted.foldl ContainmentIndex.insert ContainmentIndex.empty

/-! ## The index build (lines 94-126) -/

mutual
/-- What the build sees of the file tree under the walked root, after the
synchronisation of lines 66-92: the results of the system calls that
`filepath.Walk` and the callback make on each name. A regular file yields
the tokens of `bufio.Scanner` and the value of `scanner.Err()`; a name may
be a file that `os.Open` fails on, a directory whose names cannot be read,
or a name on which `os.Lstat` fails. -/
inductive FsNode where
  | file (lines : List String) (scanErr : Option String)
  | unopenable (err : String)
  | dir (children : FsList)
  | unreadableDir (err : String)
  | lstatFails (err : String)
/-- The names of a directory in the order `filepath.Walk` reads them
(lexical order), each with the node it names. -/
inductive FsList where
  | nil
  | cons (name : String) (node : FsNode) (rest : FsList)
end

/-- The method `IsDir` of the `os.FileInfo` of a node. -/
def FsNode.IsDir : FsNode → Bool
  | .dir _ => true
  | .unreadableDir _ => true
  | _ => false

/-- How a piece of the build ends: it returns an `error` value (`none` is
nil), it ends the process through `log.Fatal` (message logged, exit status
1), or it panics on a nil pointer dereference. Each case carries the state
of the ranger at that point. -/
inductive Ctl (ρ : Type) where
  | ret (r : ρ) (err : Option String)
  | fatal (r : ρ) (msg : String)
  | panic (r : ρ)
deriving DecidableEq

/-- The scanner loop of lines 113-116 over the remaining lines of the file
at `path`. The error of `net.ParseCIDR` is discarded and the returned
network pointer is dereferenced as an argument of `Insert`, so a line that
does not parse panics before anything is inserted for it. -/
def scanLoop {ρ : Type} (env : Env) (R : RangerImpl ρ) (path : String) :
    ρ → List String → Ctl ρ
  | r, [] => .ret r none
  | r, text :: rest =>
    match env.ParseCIDR text with
    | none => .panic r
    | some network =>
      scanLoop env R path (R.Insert r (newCustomRangerEntry network (label path))) rest

/-- The callback passed to `filepath.Walk` (lines 99-123), called on `path`
with the node found there and the error `filepath.Walk` reports for it. -/
def walkFn {ρ : Type} (env : Env) (R : RangerImpl ρ) (r : ρ) (path : String)
    (info : FsNode) (err : Option String) : Ctl ρ :=
  match err with
  | some err => .ret r (some err)
  | none =>
    match info with
    | .lstatFails _ => .panic r
    | .dir _ => .ret r none
    | .unreadableDir _ => .ret r none
    | .unopenable err => .fatal r err
    | .file lines scanErr =>
      match scanLoop env R path r lines with
      | .ret r _ =>
        match scanErr with
        | some err => .fatal r err
        | none => .ret r none
      | stop => stop

/-- Modelled from the spec: `filepath.Join` of a directory path and a name read
from that directory. The Go function also cleans the result, which changes
the directory part only; the build uses the last element alone. -/
def Join (dir name : String) : String := dir ++ "/" ++ name

mutual
/-- Modelled from the spec: the recursive `walk` of `filepath.Walk` in the Go
standard library (recursive descent into subdirectories). The callback is
called on every name; for a directory it is called with the error of
reading its names, and the descent stops at the first error returned. A name
on which `os.Lstat` fails, which the Go code hands to the callback at the
call sites of `walk`, is a case of its own here. The callback of this
program returns the error it is given or nil, never `filepath.SkipDir`. -/
def walk {ρ : Type} (env : Env) (R : RangerImpl ρ) (r : ρ) (path : String) :
    FsNode → Ctl ρ
  | .file lines scanErr => walkFn env R r path (.file lines scanErr) none
  | .unopenable err => walkFn env R r path (.unopenable err) none
  | .lstatFails err => walkFn env R r path (.lstatFails err) (some err)
  | .unreadableDir err => walkFn env R r path (.unreadableDir err) (some err)
  | .dir children =>
    match walkFn env R r path (.dir children) none with
    | .ret r none => walkList env R r path children
    | stop => stop
/-- The loop of `walk` over the names of the directory `dir`. -/
def walkList {ρ : Type} (env : Env) (R : RangerImpl ρ) (r : ρ) (dir : String) :
    FsList → Ctl ρ
  | .nil => .ret r none
  | .cons name node rest =>
    match walk env R r (Join dir name) node with
    | .ret r none => walkList env R r dir rest
    | stop => stop
end

/-- Modelled from the spec: `filepath.Walk` of the Go standard library on the
tree found at `root`. -/
def Walk {ρ : Type} (env : Env) (R : RangerImpl ρ) (r : ρ) (root : String)
    (fs : FsNode) : Ctl ρ :=
  walk env R r root fs

/-- The directory walked by `main` (line 99). -/
def walkRoot : String := "./cidr/ipv4"

/-- How `main` ends up: it reaches `srv.ListenAndServe()` with the index
built so far, having printed the error of the walk if there was one; or the
process has ended through `log.Fatal`; or it has panicked. -/
inductive MainOutcome (ρ : Type) where
  | serving (api : API ρ) (printed : Option String)
  | exited (code : Nat) (logged : String)
  | panicked
deriving DecidableEq

/-- The function `main` from line 94 on, on the file tree `fs` that lines
66-92 leave under `./cidr/ipv4`. The error returned by the walk is printed
(lines 124-126) and the server is started in any case. -/
def main {ρ : Type} (env : Env) (R : RangerImpl ρ) (fs : FsNode) : MainOutcome ρ :=
  let api : API ρ := { Ranger := R.NewPCTrieRanger }
  match Walk env R api.Ranger walkRoot fs with
  | .ret r err => .serving { Ranger := r } err
  | .fatal _ msg => .exited 1 msg
  | .panic _ => .panicked

mutual
/-- The non-directory files found by recursive descent below `path`, in walk
order, each with its path and its lines. -/
def FsNode.files (path : String) : FsNode → List (String × List String)
  | .file lines _ => [(path, lines)]
  | .dir children => children.files path
  | _ => []
/-- The files below the names of a directory, in walk order. -/
def FsList.files (dir : String) : FsList → List (String × List String)
  | .nil => []
  | .cons name node rest => node.files (Join dir name) ++ rest.files dir
end

mutual
/-- No system call on the tree fails: every name can be examined, every
directory read, every file opened and scanned to its end. -/
def FsNode.readable : FsNode → Bool
  | .file _ scanErr => scanErr.isNone
  | .dir children => children.readable
  | _ => false
/-- Readability of all the names of a directory. -/
def FsList.readable : FsList → Bool
  | .nil => true
  | .cons _ node rest => node.readable && rest.readable
end

/-- The entries of the lines of one file that parse, in file order, each
with the label of the file. -/
def fileEntries (env : Env) (path : String) (lines : List String) : List RangerEntry :=
  lines.filterMap
    (fun text => (env.ParseCIDR text).map (fun network => newCustomRangerEntry network (label path)))

/-- The entries of all files of a tree: files in walk order, lines in file
order. -/
def treeEntries (env : Env) (root : String) (fs : FsNode) : List RangerEntry :=
  (fs.files root).flatMap (fun f => fileEntries env f.1 f.2)

/-- Every line of every file of the tree is a CIDR literal. -/
def allLinesParse (env : Env) (root : String) (fs : FsNode) : Prop :=
  ∀ f ∈ fs.files root, ∀ text ∈ f.2, (env.ParseCIDR text).isSome = true

/-- The total number of lines of the files of a tree. -/
def lineCount (root : String) (fs : FsNode) : Nat :=
  ((fs.files root).map (fun f => f.2.length)).sum

/-! ## A concrete environment for IPv4 -/

/-- Value of a string of decimal digits, `none` if another character occurs. -/
def decValue : List Char → Nat → Option Nat
  | [], acc => some acc
  | c :: cs, acc =>
    if c.isDigit then decValue cs (acc * 10 + (c.toNat - 48)) else none

/-- A decimal number of one to three digits without a leading zero, at most
`bound`. -/
def parseDecimal (bound : Nat) (cs : List Char) : Option Nat :=
  if cs = [] ∨ 3 < cs.length ∨ (1 < cs.length ∧ cs.head? = some '0') then none
  else (decValue cs 0).filter (fun v => v ≤ bound)

/-- The pieces of a string between the occurrences of a separator. -/
def splitAtChar (sep : Char) : List Char → List (List Char)
  | [] => [[]]
  | c :: cs =>
    if c = sep then [] :: splitAtChar sep cs
    else
      match splitAtChar sep cs with
      | [] => [[c]]
      | piece :: pieces => (c :: piece) :: pieces

/-- A dotted-quad IPv4 address as a 32-bit number. -/
def parseDottedQuad (cs : List Char) : Option Nat :=
  match (splitAtChar '.' cs).map (parseDecimal 255) with
  | [some a, some b, some c, some d] => some (((a * 256 + b) * 256 + c) * 256 + d)
  | _ => none

/-- Modelled from the spec: `net.ParseIP` of the Go standard library on
dotted-quad IPv4 text; anything else is not an address. -/
def parseIPv4 (s : String) : Option IP :=
  (parseDottedQuad s.toList).map (fun v => { family := .v4, value := v })

/-- Modelled from the spec: the Prefix Parser (`net.ParseCIDR` of the Go
standard library) on IPv4 text `address/prefixLength`: the prefix length is
at most 32 and the host bits of the result are zeroed. -/
def parseCIDRv4 (s : String) : Option IPNet :=
  match splitAtChar '/' s.toList with
  | [addr, len] =>
    match parseDottedQuad addr, parseDecimal 32 len with
    | some v, some n =>
      some { family := .v4, base := v / 2 ^ (32 - n) * 2 ^ (32 - n), ones := n }
    | _, _ => none
  | _ => none

/-- Modelled from the spec: `net.IPNet.String` of the Go standard library on an
IPv4 network, the canonical `address/prefixLength` string. -/
def ipNetString (n : IPNet) : String :=
  toString (n.base / 2 ^ 24 % 256) ++ "." ++ toString (n.base / 2 ^ 16 % 256) ++ "." ++
    toString (n.base / 2 ^ 8 % 256) ++ "." ++ toString (n.base % 256) ++ "/" ++ toString n.ones

/-- One match as a JSON object (strings are not escaped). -/
def matchJSON (m : Match) : String :=
  "\x7b\"country\":\"" ++ m.Country ++ "\",\"network\":\"" ++ m.Net ++ "\"\x7d"

/-- Modelled from the spec: `json.Marshal` of the Go standard library on an
`Items` value whose strings need no escaping; it never fails. -/
def marshalItems (result : Items) : Except String String :=
  .ok ("\x7b\"matches\":[" ++ ",".intercalate (result.Match.map matchJSON) ++
    "],\"status\":\"" ++ result.Status ++ "\"\x7d")

/-- The environment of the worked examples: IPv4 only. -/
def ipv4Env : Env where
  ParseIP := parseIPv4
  ParseCIDR := parseCIDRv4
  IPNetString := ipNetString
  Marshal := marshalItems

/-- The entry for a CIDR literal and a label, as line 115 builds it; a
literal that does not parse gives the default network. -/
def entryOf (text country : String) : RangerEntry :=
  newCustomRangerEntry ((parseCIDRv4 text).getD { family := .v4, base := 0, ones := 0 }) country

/-- The entry at the end of an inserted path, if the walk along `q` passes
through the end of the path `k`. -/
def hit (k q : List Bool) (e : RangerEntry) : List RangerEntry :=
  if k <+: q then [e] else []

/-- The entry `e` if it belongs to family `f` and the walk along `q` passes
through the end of its path, nothing otherwise. -/
def matchAt (f : Family) (q : List Bool) (e : RangerEntry) : List RangerEntry :=
  if e.Network.family = f then
    hit (keyBits e.Network.family.bits e.Network.base e.Network.ones) q e
  else []

/-- A ranger that only records the calls of `Insert`, in order. -/
def insertionLog : RangerImpl (List RangerEntry) where
  NewPCTrieRanger := []
  Insert := fun log e => log ++ [e]
  ContainingNetworks := fun _ _ => .ok []

/-- A tree for the worked examples: a file `de.txt` and a subdirectory `sub`
holding `us.txt`. -/
def sampleTree : FsNode :=
  .dir (.cons "de.txt" (.file ["1.2.3.0/24"] none)
    (.cons "sub" (.dir (.cons "us.txt" (.file ["5.6.7.0/24", "10.0.0.0/8"] none) .nil))
      .nil))

/-- The index of the nesting example: `10.0.0.0/8` labelled `A`, then
`10.1.0.0/16` labelled `B`. -/
def nestedIndex : ContainmentIndex :=
  indexOf [entryOf "10.0.0.0/8" "A", entryOf "10.1.0.0/16" "B"]

/-- A failure of a system call during the build, by the way the build meets
it: an error that `filepath.Walk` hands to the callback (a name that cannot
be examined, a directory whose names cannot be read), or an error the
callback meets itself on a file (`os.Open` fails, the scanner stops on a
read error). -/
inductive Failure where
  | walkError (err : String)
  | fileError (err : String)
deriving DecidableEq

mutual
/-- The first failure below a node, in walk order. -/
def FsNode.firstFailure : FsNode → Option Failure
  | .file _ scanErr => scanErr.map Failure.fileError
  | .unopenable err => some (.fileError err)
  | .lstatFails err => some (.walkError err)
  | .unreadableDir err => some (.walkError err)
  | .dir children => children.firstFailure
/-- The first failure among the names of a directory, in walk order. -/
def FsList.firstFailure : FsList → Option Failure
  | .nil => none
  | .cons _ node rest =>
    match node.firstFailure with
    | some failure => some failure
    | none => rest.firstFailure
end

mutual
/-- The files scanned up to the first failure, in walk order, each with its
path and the lines scanned (a file whose scan ends in a read error is the
last of them). -/
def FsNode.filesRead (path : String) : FsNode → List (String × List String)
  | .file lines _ => [(path, lines)]
  | .dir children => children.filesRead path
  | _ => []
/-- The files scanned up to the first failure among the names of a
directory. -/
def FsList.filesRead (dir : String) : FsList → List (String × List String)
  | .nil => []
  | .cons name node rest =>
    node.filesRead (Join dir name) ++
      (if node.firstFailure = none then rest.filesRead dir else [])
end

/-- The end of a walk whose first failure is the given one, with the ranger
in state `r`: a walk error is returned, a file error is fatal. -/
def walkEnd {ρ : Type} (r : ρ) : Option Failure → Ctl ρ
  | none => .ret r none
  | some (.walkError err) => .ret r (some err)
  | some (.fileError err) => .fatal r err

/-- A tree in which `de.txt` is read and a name in the subdirectory `sub`
cannot be examined; a last file is never reached. -/
def lstatFailureTree : FsNode :=
  .dir (.cons "de.txt" (.file ["1.2.3.0/24"] none)
    (.cons "sub" (.dir (.cons "us.txt" (.lstatFails "lstat cidr/ipv4/sub/us.txt: permission denied") .nil))
      (.cons "zz.txt" (.file ["10.0.0.0/8"] none) .nil)))

/-- A tree in which `de.txt` is read and the subdirectory `sub` cannot be
read. -/
def unreadableDirTree : FsNode :=
  .dir (.cons "de.txt" (.file ["1.2.3.0/24"] none)
    (.cons "sub" (.unreadableDir "open cidr/ipv4/sub: permission denied")
      (.cons "zz.txt" (.file ["10.0.0.0/8"] none) .nil)))

/-- A tree in which `de.txt` is read and a file in the subdirectory `sub`
cannot be opened. -/
def openFailureTree : FsNode :=
  .dir (.cons "de.txt" (.file ["1.2.3.0/24"] none)
    (.cons "sub" (.dir (.cons "us.txt" (.unopenable "open cidr/ipv4/sub/us.txt: permission denied") .nil))
      (.cons "zz.txt" (.file ["10.0.0.0/8"] none) .nil)))

/-- A tree in which the scan of `us.txt` in the subdirectory `sub` stops on a
read error after one line. -/
def readFailureTree : FsNode :=
  .dir (.cons "de.txt" (.file ["1.2.3.0/24"] none)
    (.cons "sub" (.dir (.cons "us.txt" (.file ["5.6.7.0/24"] (some "read cidr/ipv4/sub/us.txt: input/output error")) .nil))
      (.cons "zz.txt" (.file ["10.0.0.0/8"] none) .nil)))

/-! ## Theorems: label derivation -/

theorem trimScan_split (cutset : List Char) (s : List Char) :
    ∃ r, s = r ++ trimScan cutset s ∧ (∀ c ∈ r, c ∈ cutset) := by
  induction s with
  | nil => exact ⟨[], by simp [trimScan]⟩
  | cons c rest ih =>
    by_cases hc : c ∈ cutset
    · obtain ⟨r, hr, hall⟩ := ih
      refine ⟨c :: r, ?_, ?_⟩
      · simp only [trimScan, hc, if_true, List.cons_append]
        exact congrArg _ hr
      · intro d hd
        rcases List.mem_cons.mp hd with rfl | hd
        · exact hc
        · exact hall d hd
    · exact ⟨[], by simp [trimScan, hc]⟩

theorem trimScan_head (cutset : List Char) (s : List Char) (c : Char)
    (h : (trimScan cutset s).head? = some c) : c ∉ cutset := by
  induction s with
  | nil => simp [trimScan] at h
  | cons d rest ih =>
    by_cases hd : d ∈ cutset
    · simp only [trimScan, hd, if_true] at h
      exact ih h
    · simp only [trimScan, hd, if_false, List.head?_cons, Option.some.injEq] at h
      exact h ▸ hd

theorem trimScan_append (cutset r s : List Char) (hr : ∀ c ∈ r, c ∈ cutset) :
    trimScan cutset (r ++ s) = trimScan cutset s := by
  induction r with
  | nil => rfl
  | cons c r ih =>
    have hc : c ∈ cutset := hr c (List.mem_cons_self _ _)
    simp only [List.cons_append, trimScan, hc, if_true]
    exact ih (fun d hd => hr d (List.mem_cons_of_mem _ hd))

theorem trimScan_fixed (cutset s : List Char)
    (h : ∀ c, s.head? = some c → c ∉ cutset) : trimScan cutset s = s := by
  cases s with
  | nil => rfl
  | cons c rest =>
    have hc : c ∉ cutset := h c rfl
    simp [trimScan, hc]

theorem TrimRight_split (s cutset : List Char) :
    ∃ r, s = TrimRight s cutset ++ r ∧ (∀ c ∈ r, c ∈ cutset) := by
  obtain ⟨r, hr, hall⟩ := trimScan_split cutset s.reverse
  refine ⟨r.reverse, ?_, fun c hc => hall c (List.mem_reverse.mp hc)⟩
  have := congrArg List.reverse hr
  simpa [TrimRight] using this

theorem TrimRight_getLast (s cutset : List Char) (c : Char)
    (h : (TrimRight s cutset).getLast? = some c) : c ∉ cutset := by
  apply trimScan_head cutset s.reverse c
  simpa [TrimRight, List.getLast?_reverse] using h

theorem TrimRight_stem (stem run cutset : List Char) (hrun : ∀ c ∈ run, c ∈ cutset)
    (hstem : ∀ c, stem.getLast? = some c → c ∉ cutset) :
    TrimRight (stem ++ run) cutset = stem := by
  unfold TrimRight
  rw [List.reverse_append, trimScan_append cutset _ _ (fun c hc => hrun c (List.mem_reverse.mp hc)),
    trimScan_fixed, List.reverse_reverse]
  intro c hc
  exact hstem c (by simpa [List.head?_reverse] using hc)

theorem TrimRight_longest (s cutset p r : List Char) (hs : s = p ++ r)
    (hr : ∀ c ∈ r, c ∈ cutset) : (TrimRight s cutset).length ≤ p.length := by
  subst hs
  unfold TrimRight
  rw [List.reverse_append, trimScan_append cutset _ _ (fun c hc => hr c (List.mem_reverse.mp hc))]
  obtain ⟨q, hq, _⟩ := trimScan_split cutset p.reverse
  have := congrArg List.length hq
  simp at this
  simp
  omega

/-- C9: the label is a character trim of the base name by the characters of
the extension. For every path the base name is the label followed by a run
of characters of the extension, that run is the longest such, and the label
does not end in a character of the extension; `txt.txt` gives the empty
label and `at.txt` gives `a`; a base name `stem ++ ext` whose stem does not
end in a character of `ext` gives the stem. -/
theorem label_is_character_trim :
    (∀ path : String,
      (∃ run, Base path.toList = (label path).toList ++ run ∧
        (∀ c ∈ run, c ∈ Ext path.toList)) ∧
      (∀ p run, Base path.toList = p ++ run → (∀ c ∈ run, c ∈ Ext path.toList) →
        (label path).toList.length ≤ p.length) ∧
      (∀ c, (label path).toList.getLast? = some c → c ∉ Ext path.toList)) ∧
    label "txt.txt" = "" ∧ label "at.txt" = "a" ∧
    (∀ (path : String) (stem : List Char),
      Base path.toList = stem ++ Ext path.toList →
      (∀ c, stem.getLast? = some c → c ∉ Ext path.toList) →
      label path = String.mk stem) := by
  refine ⟨fun path => ⟨?_, ?_, ?_⟩, by decide, by decide, ?_⟩
  · exact TrimRight_split _ _
  · intro p run hb hrun
    exact TrimRight_longest _ _ p run hb hrun
  · intro c hc
    exact TrimRight_getLast _ _ c hc
  · intro path stem hb hstem
    unfold label
    rw [hb, TrimRight_stem stem _ _ (fun c hc => hc) hstem]

/-- C9, at `germany.txt`: the stem ends in `y`, so the label is the stem. -/
theorem label_is_character_trim_witness : label "germany.txt" = "germany" :=
  label_is_character_trim.2.2.2 "germany.txt" "germany".toList (by decide) (by decide)
/-- C3: the label of `at.txt` is `a`, not the name `at` that precedes the
extension `.txt`: the trailing `t` of the name is trimmed with the
extension. The labels of `us.txt` and `germany.txt` are the names. -/
theorem label_at_txt_loses_t :
    Base "./cidr/ipv4/at.txt".toList = "at".toList ++ ".txt".toList ∧
    Ext "./cidr/ipv4/at.txt".toList = ".txt".toList ∧
    label "./cidr/ipv4/at.txt" = "a" ∧
    label "./cidr/ipv4/at.txt" ≠ "at" ∧
    label "./cidr/ipv4/us.txt" = "us" ∧
    label "./cidr/ipv4/germany.txt" = "germany" := by
  decide

/-! ## Theorems: the containment index -/

theorem Trie.query_leaf (q : List Bool) : Trie.query .leaf q = [] := by
  cases q <;> rfl

theorem hit_nil (q : List Bool) (e : RangerEntry) : hit [] q e = [e] := by
  simp [hit]

theorem hit_cons_nil (b : Bool) (bs : List Bool) (e : RangerEntry) :
    hit (b :: bs) [] e = [] := by
  simp [hit]

theorem hit_cons_cons (b c : Bool) (bs cs : List Bool) (e : RangerEntry) :
    hit (b :: bs) (c :: cs) e = if b = c then hit bs cs e else [] := by
  unfold hit
  by_cases hbc : b = c
  · subst hbc
    simp [List.cons_prefix_cons]
  · simp [List.cons_prefix_cons, hbc]

theorem Trie.query_insert (k : List Bool) (e : RangerEntry) :
    ∀ (t : Trie) (q : List Bool),
      ((t.insert k e).query q).Perm (t.query q ++ hit k q e) := by
  induction k with
  | nil =>
    intro t q
    rw [hit_nil]
    cases t with
    | leaf => cases q <;> simp [Trie.insert, Trie.query, Trie.query_leaf]
    | node es z o =>
      cases q with
      | nil => simp [Trie.insert, Trie.query]
      | cons c cs =>
        simp only [Trie.insert, Trie.query, List.append_assoc]
        exact List.Perm.append_left es List.perm_append_comm
  | cons b bs ih =>
    intro t q
    cases q with
    | nil =>
      rw [hit_cons_nil]
      cases t <;> cases b <;> simp [Trie.insert, Trie.query]
    | cons c cs =>
      rw [hit_cons_cons]
      cases t with
      | leaf =>
        have h := ih .leaf cs
        rw [Trie.query_leaf] at h
        cases b <;> cases c <;>
          simp [Trie.insert, Trie.query, Trie.query_leaf] <;> simpa using h
      | node es z o =>
        have hz := ih z cs
        have ho := ih o cs
        cases b <;> cases c <;>
          simp only [Trie.insert, Trie.query, if_true, if_false, Bool.false_eq_true,
            List.append_assoc, List.append_nil, reduceCtorEq] <;>
          first
            | exact List.Perm.refl _
            | exact List.Perm.append_left es hz
            | exact List.Perm.append_left es ho

theorem keyBits_prefix_iff (w v a n : Nat) (hn : n ≤ w) :
    keyBits w v n <+: keyBits w a w ↔ ∀ i < n, bitAt w v i = bitAt w a i := by
  rw [List.prefix_iff_eq_take]
  simp only [keyBits, List.length_map, List.length_range, ← List.map_take, List.take_range,
    Nat.min_eq_left hn, List.map_inj_left, List.mem_range]

theorem testBit_topBits (w x n j : Nat) :
    Nat.testBit ((x % 2 ^ w) / 2 ^ (w - n)) j =
      (decide (w - n + j < w) && Nat.testBit x (w - n + j)) := by
  rw [← Nat.shiftRight_eq_div_pow, Nat.testBit_shiftRight, Nat.testBit_mod_two_pow]

theorem topBits_eq_iff (w v a n : Nat) (hn : n ≤ w) :
    (a % 2 ^ w) / 2 ^ (w - n) = (v % 2 ^ w) / 2 ^ (w - n) ↔
      ∀ i < n, bitAt w v i = bitAt w a i := by
  constructor
  · intro h i hi
    have h1 := congrArg (fun x => Nat.testBit x (n - 1 - i)) h
    simp only [testBit_topBits] at h1
    have e : w - n + (n - 1 - i) = w - 1 - i := by omega
    have hlt : w - 1 - i < w := by omega
    rw [e] at h1
    simp only [hlt, decide_True, Bool.true_and] at h1
    exact h1.symm
  · intro h
    apply Nat.eq_of_testBit_eq
    intro j
    simp only [testBit_topBits]
    by_cases hj : w - n + j < w
    · have := h (n - 1 - j) (by omega)
      unfold bitAt at this
      have e : w - 1 - (n - 1 - j) = w - n + j := by omega
      rw [e] at this
      simp [hj, this]
    · simp [hj]
theorem ContainmentIndex.family_query_insert (idx : ContainmentIndex) (e : RangerEntry)
    (f : Family) (q : List Bool) :
    (((idx.insert e).trie f).query q).Perm ((idx.trie f).query q ++ matchAt f q e) := by
  unfold ContainmentIndex.insert matchAt
  cases hfam : e.Network.family <;> cases f <;>
    simp only [hfam, ContainmentIndex.trie, if_true, reduceCtorEq, if_false,
      List.append_nil] <;>
    first
      | exact Trie.query_insert _ e _ q
      | exact List.Perm.refl _

theorem ContainmentIndex.family_query_foldl (f : Family) (q : List Bool) :
    ∀ (es : List RangerEntry) (idx : ContainmentIndex),
      (((es.foldl ContainmentIndex.insert idx).trie f).query q).Perm
        ((idx.trie f).query q ++ es.flatMap (matchAt f q)) := by
  intro es
  induction es with
  | nil => intro idx; simp
  | cons e es ih =>
    intro idx
    simp only [List.foldl_cons, List.flatMap_cons]
    refine (ih (idx.insert e)).trans ?_
    rw [← List.append_assoc]
    exact List.Perm.append_right _ (ContainmentIndex.family_query_insert idx e f q)

theorem matchAt_eq_contains (e : RangerEntry) (a : IP)
    (hvalid : e.Network.ones ≤ e.Network.family.bits) :
    matchAt a.family (keyBits a.family.bits a.value a.family.bits) e =
      if e.Network.Contains a = true then [e] else [] := by
  unfold matchAt IPNet.Contains hit
  by_cases hfam : e.Network.family = a.family
  · rw [← hfam]
    simp only [if_true, keyBits_prefix_iff _ _ _ _ hvalid, decide_eq_true_eq, true_and,
      topBits_eq_iff _ _ _ _ hvalid]
  · simp [hfam]

theorem flatMap_matchAt_eq_linearScan (a : IP) :
    ∀ (es : List RangerEntry), (∀ e ∈ es, e.Network.ones ≤ e.Network.family.bits) →
      es.flatMap (matchAt a.family (keyBits a.family.bits a.value a.family.bits)) =
        linearScan es a := by
  intro es
  induction es with
  | nil => intro _; rfl
  | cons e es ih =>
    intro hvalid
    have he := hvalid e (List.mem_cons_self _ _)
    have hes := ih (fun x hx => hvalid x (List.mem_cons_of_mem _ hx))
    unfold linearScan at hes ⊢
    rw [List.flatMap_cons, matchAt_eq_contains e a he, hes, List.filter_cons]
    by_cases hc : e.Network.Contains a = true <;> simp [hc]

/-- C6: after inserting any sequence of entries with valid prefix lengths
into the empty index, `ContainingNetworks` succeeds on every address and its
result is the brute-force linear scan up to order; so an entry is in the
result exactly when it was inserted and its prefix contains the address,
which is to say that the first `ones` bits of the address are those of the
base of the prefix. -/
theorem containingNetworks_eq_linearScan (inserted : List RangerEntry) (a : IP)
    (hvalid : ∀ e ∈ inserted, e.Network.ones ≤ e.Network.family.bits) :
    ∃ found,
      pcTrieRanger.ContainingNetworks
        (inserted.foldl pcTrieRanger.Insert pcTrieRanger.NewPCTrieRanger) (some a) = .ok found ∧
      found.Perm (linearScan inserted a) ∧
      (∀ e, e ∈ found ↔ e ∈ inserted ∧ e.Network.Contains a = true) ∧
      ∀ e ∈ inserted, (e.Network.Contains a = true ↔
        e.Network.family = a.family ∧
          ∀ i < e.Network.ones,
            bitAt e.Network.family.bits e.Network.base i =
              bitAt e.Network.family.bits a.value i) := by
  refine ⟨_, rfl, ?_, ?_, ?_⟩
  · have h := ContainmentIndex.family_query_foldl a.family
      (keyBits a.family.bits a.value a.family.bits) inserted ContainmentIndex.empty
    rw [flatMap_matchAt_eq_linearScan a inserted hvalid] at h
    have hempty : (ContainmentIndex.empty.trie a.family).query
        (keyBits a.family.bits a.value a.family.bits) = [] := by
      cases a.family <;> exact Trie.query_leaf _
    rw [hempty, List.nil_append] at h
    exact h
  · intro e
    have h := ContainmentIndex.family_query_foldl a.family
      (keyBits a.family.bits a.value a.family.bits) inserted ContainmentIndex.empty
    rw [flatMap_matchAt_eq_linearScan a inserted hvalid] at h
    have hempty : (ContainmentIndex.empty.trie a.family).query
        (keyBits a.family.bits a.value a.family.bits) = [] := by
      cases a.family <;> exact Trie.query_leaf _
    rw [hempty, List.nil_append] at h
    rw [show (e ∈ inserted ∧ e.Network.Contains a = true) ↔ e ∈ linearScan inserted a by
      simp [linearScan, List.mem_filter]]
    exact h.mem_iff
  · intro e he
    simp only [IPNet.Contains, decide_eq_true_eq, topBits_eq_iff _ _ _ _ (hvalid e he)]

/-- C6, on the two nested prefixes `10.0.0.0/8` and `10.1.0.0/16` and the
address `10.1.2.3`. -/
theorem containingNetworks_eq_linearScan_witness :
    (∀ e ∈ [entryOf "10.0.0.0/8" "A", entryOf "10.1.0.0/16" "B"],
        e.Network.ones ≤ e.Network.family.bits) ∧
    ∃ found,
      pcTrieRanger.ContainingNetworks
        ([entryOf "10.0.0.0/8" "A", entryOf "10.1.0.0/16" "B"].foldl
          pcTrieRanger.Insert pcTrieRanger.NewPCTrieRanger)
        (some { family := .v4, value := 0x0A010203 }) = .ok found ∧
      found.Perm (linearScan [entryOf "10.0.0.0/8" "A", entryOf "10.1.0.0/16" "B"]
        { family := .v4, value := 0x0A010203 }) ∧
      (∀ e, e ∈ found ↔ e ∈ [entryOf "10.0.0.0/8" "A", entryOf "10.1.0.0/16" "B"] ∧
        e.Network.Contains { family := .v4, value := 0x0A010203 } = true) ∧
      ∀ e ∈ [entryOf "10.0.0.0/8" "A", entryOf "10.1.0.0/16" "B"],
        (e.Network.Contains { family := .v4, value := 0x0A010203 } = true ↔
          e.Network.family = Family.v4 ∧
            ∀ i < e.Network.ones,
              bitAt e.Network.family.bits e.Network.base i =
                bitAt e.Network.family.bits 0x0A010203 i) :=
  ⟨by decide, containingNetworks_eq_linearScan _ _ (by decide)⟩

/-! ## Theorems: the index build -/

theorem scanLoop_all_parse {ρ : Type} (env : Env) (R : RangerImpl ρ) (path : String) :
    ∀ (lines : List String) (r : ρ),
      (∀ text ∈ lines, (env.ParseCIDR text).isSome = true) →
      scanLoop env R path r lines = .ret ((fileEntries env path lines).foldl R.Insert r) none := by
  intro lines
  induction lines with
  | nil => intro r _; rfl
  | cons text rest ih =>
    intro r h
    have ht := h text (List.mem_cons_self _ _)
    obtain ⟨network, hn⟩ := Option.isSome_iff_exists.mp ht
    have hrest := ih (R.Insert r (newCustomRangerEntry network (label path)))
      (fun t hm => h t (List.mem_cons_of_mem _ hm))
    simp only [scanLoop, hn, fileEntries, List.filterMap_cons, Option.map_some',
      List.foldl_cons]
    exact hrest

theorem scanLoop_first_bad {ρ : Type} (env : Env) (R : RangerImpl ρ) (path : String) :
    ∀ (good : List String) (bad : String) (rest : List String) (r : ρ),
      (∀ text ∈ good, (env.ParseCIDR text).isSome = true) →
      env.ParseCIDR bad = none →
      scanLoop env R path r (good ++ bad :: rest) =
        .panic ((fileEntries env path good).foldl R.Insert r) := by
  intro good
  induction good with
  | nil =>
    intro bad rest r _ hbad
    simp [scanLoop, hbad, fileEntries]
  | cons text good ih =>
    intro bad rest r h hbad
    have ht := h text (List.mem_cons_self _ _)
    obtain ⟨network, hn⟩ := Option.isSome_iff_exists.mp ht
    have hrest := ih bad rest (R.Insert r (newCustomRangerEntry network (label path)))
      (fun t hm => h t (List.mem_cons_of_mem _ hm)) hbad
    simp only [List.cons_append, scanLoop, hn, fileEntries, List.filterMap_cons,
      Option.map_some', List.foldl_cons]
    exact hrest

mutual
theorem walk_readable {ρ : Type} (env : Env) (R : RangerImpl ρ) :
    ∀ (fs : FsNode) (r : ρ) (path : String), fs.readable = true →
      (∀ f ∈ fs.files path, ∀ text ∈ f.2, (env.ParseCIDR text).isSome = true) →
      walk env R r path fs =
        .ret (((fs.files path).flatMap (fun f => fileEntries env f.1 f.2)).foldl R.Insert r) none
  | .file lines scanErr, r, path, hread, hparse => by
    have hs : scanErr = none := by
      cases scanErr with
      | none => rfl
      | some e => simp [FsNode.readable] at hread
    subst hs
    have hl := scanLoop_all_parse env R path lines r
      (fun t ht => hparse (path, lines) (by simp [FsNode.files]) t ht)
    simp [walk, walkFn, hl, FsNode.files]
  | .unopenable _, _, _, hread, _ => by simp [FsNode.readable] at hread
  | .lstatFails _, _, _, hread, _ => by simp [FsNode.readable] at hread
  | .unreadableDir _, _, _, hread, _ => by simp [FsNode.readable] at hread
  | .dir children, r, path, hread, hparse => by
    have hc := walkList_readable env R children r path
      (by simpa [FsNode.readable] using hread)
      (fun f hf => hparse f (by simpa [FsNode.files] using hf))
    simp [walk, walkFn, hc, FsNode.files]
theorem walkList_readable {ρ : Type} (env : Env) (R : RangerImpl ρ) :
    ∀ (l : FsList) (r : ρ) (dir : String), l.readable = true →
      (∀ f ∈ l.files dir, ∀ text ∈ f.2, (env.ParseCIDR text).isSome = true) →
      walkList env R r dir l =
        .ret (((l.files dir).flatMap (fun f => fileEntries env f.1 f.2)).foldl R.Insert r) none
  | .nil, r, dir, _, _ => by simp [walkList, FsList.files]
  | .cons name node rest, r, dir, hread, hparse => by
    have hr : node.readable = true ∧ rest.readable = true := by
      simpa [FsList.readable] using hread
    have h1 := walk_readable env R node r (Join dir name) hr.1
      (fun f hf => hparse f (by simp [FsList.files, hf]))
    have h2 := walkList_readable env R rest
      (((node.files (Join dir name)).flatMap (fun f => fileEntries env f.1 f.2)).foldl R.Insert r)
      dir hr.2 (fun f hf => hparse f (by simp [FsList.files, hf]))
    simp [walkList, h1, h2, FsList.files, List.flatMap_append, List.foldl_append]
end
theorem fileEntries_pointwise (env : Env) (path : String) :
    ∀ (lines : List String), (∀ text ∈ lines, (env.ParseCIDR text).isSome = true) →
      List.Forall₂
        (fun text e => ∃ network, env.ParseCIDR text = some network ∧
          e = RangerEntry.custom { ipNet := network, country := label path } ∧
          e.Network = network)
        lines (fileEntries env path lines) := by
  intro lines
  induction lines with
  | nil => intro _; exact List.Forall₂.nil
  | cons text rest ih =>
    intro h
    obtain ⟨network, hn⟩ := Option.isSome_iff_exists.mp (h text (List.mem_cons_self _ _))
    have hrest := ih (fun t hm => h t (List.mem_cons_of_mem _ hm))
    simp only [fileEntries, List.filterMap_cons, hn, Option.map_some']
    exact List.Forall₂.cons ⟨network, hn, rfl, rfl⟩ hrest

theorem treeEntries_length (env : Env) (root : String) (fs : FsNode)
    (hparse : allLinesParse env root fs) :
    (treeEntries env root fs).length = lineCount root fs := by
  unfold treeEntries lineCount
  unfold allLinesParse at hparse
  generalize fs.files root = files at hparse
  induction files with
  | nil => rfl
  | cons f files ih =>
    have hf := (fileEntries_pointwise env f.1 f.2 (hparse f (List.mem_cons_self _ _))).length_eq
    have hrest := ih (fun g hg => hparse g (List.mem_cons_of_mem _ hg))
    simp only [List.flatMap_cons, List.length_append, List.map_cons, List.sum_cons, hrest, hf]

theorem insertionLog_foldl (es : List RangerEntry) :
    ∀ log : List RangerEntry, es.foldl insertionLog.Insert log = log ++ es := by
  induction es with
  | nil => intro log; simp
  | cons e es ih =>
    intro log
    simp only [List.foldl_cons, ih]
    simp [insertionLog]

/-- C8: on a tree that can be read throughout and whose lines all parse, the
build ends without error and `main` goes on to serve; the ranger then holds
the entries of the non-directory files in walk order, the lines of a file in
file order (the recorded sequence of `Insert` calls is exactly that list);
each line gives one entry, a `customRangerEntry` whose `ipNet` is the network
parsed from the line and whose `country` is the label of its file, so there
are as many entries as lines. -/
theorem build_inserts_every_line {ρ : Type} (env : Env) (R : RangerImpl ρ) (fs : FsNode)
    (hread : fs.readable = true) (hparse : allLinesParse env walkRoot fs) :
    main env R fs =
      .serving { Ranger := (treeEntries env walkRoot fs).foldl R.Insert R.NewPCTrieRanger }
        none ∧
    main env insertionLog fs = .serving { Ranger := treeEntries env walkRoot fs } none ∧
    treeEntries env walkRoot fs =
      (fs.files walkRoot).flatMap (fun f => fileEntries env f.1 f.2) ∧
    (∀ f ∈ fs.files walkRoot,
      List.Forall₂
        (fun text e => ∃ network, env.ParseCIDR text = some network ∧
          e = RangerEntry.custom { ipNet := network, country := label f.1 } ∧
          e.Network = network)
        f.2 (fileEntries env f.1 f.2)) ∧
    (treeEntries env walkRoot fs).length = lineCount walkRoot fs := by
  refine ⟨?_, ?_, rfl, ?_, treeEntries_length env walkRoot fs hparse⟩
  · simp only [main, Walk, walk_readable env R fs _ walkRoot hread hparse, treeEntries]
  · simp only [main, Walk, walk_readable env insertionLog fs _ walkRoot hread hparse,
      treeEntries, insertionLog_foldl]
    simp [insertionLog]
  · intro f hf
    exact fileEntries_pointwise env f.1 f.2 (hparse f hf)

/-- C8, on a tree with a file and a subdirectory holding a second file: the
three entries inserted, with their networks and labels written out. -/
theorem build_inserts_every_line_witness :
    sampleTree.readable = true ∧ allLinesParse ipv4Env walkRoot sampleTree ∧
    main ipv4Env insertionLog sampleTree =
      .serving
        { Ranger :=
            [.custom { ipNet := { family := .v4, base := 0x01020300, ones := 24 }, country := "de" },
             .custom { ipNet := { family := .v4, base := 0x05060700, ones := 24 }, country := "us" },
             .custom { ipNet := { family := .v4, base := 0x0A000000, ones := 8 }, country := "us" }] }
        none :=
  ⟨by decide, by unfold allLinesParse; decide,
    ((build_inserts_every_line ipv4Env insertionLog sampleTree (by decide)
      (by unfold allLinesParse; decide)).2.1).trans (by decide)⟩

/-- C2: a file whose second line is not a CIDR literal. The scanner loop
panics at that line with only the first line inserted; the third line is
never ingested, and `main` on a tree holding the file panics instead of
serving. The lines that parse are the first and the third; a blank line
fails in the same way. -/
theorem scanLoop_panics_on_bad_line :
    ipv4Env.ParseCIDR "not a cidr" = none ∧
    fileEntries ipv4Env "./cidr/ipv4/us.txt" ["1.2.3.0/24", "not a cidr", "5.6.7.0/24"] =
      [entryOf "1.2.3.0/24" "us", entryOf "5.6.7.0/24" "us"] ∧
    scanLoop ipv4Env insertionLog "./cidr/ipv4/us.txt" []
      ["1.2.3.0/24", "not a cidr", "5.6.7.0/24"] = .panic [entryOf "1.2.3.0/24" "us"] ∧
    main ipv4Env insertionLog
      (.dir (.cons "us.txt" (.file ["1.2.3.0/24", "not a cidr", "5.6.7.0/24"] none) .nil)) =
      .panicked ∧
    ipv4Env.ParseCIDR "" = none ∧
    scanLoop ipv4Env insertionLog "./cidr/ipv4/us.txt" [] ["1.2.3.0/24", ""] =
      .panic [entryOf "1.2.3.0/24" "us"] := by
  decide

mutual
theorem walk_firstFailure {ρ : Type} (env : Env) (R : RangerImpl ρ) :
    ∀ (fs : FsNode) (r : ρ) (path : String),
      (∀ f ∈ fs.filesRead path, ∀ text ∈ f.2, (env.ParseCIDR text).isSome = true) →
      walk env R r path fs =
        walkEnd
          (((fs.filesRead path).flatMap (fun f => fileEntries env f.1 f.2)).foldl R.Insert r)
          fs.firstFailure
  | .file lines scanErr, r, path, hparse => by
    have hl := scanLoop_all_parse env R path lines r
      (fun t ht => hparse (path, lines) (by simp [FsNode.filesRead]) t ht)
    cases scanErr <;>
      simp [walk, walkFn, hl, FsNode.filesRead, FsNode.firstFailure, walkEnd]
  | .unopenable _, _, _, _ => by
    simp [walk, walkFn, FsNode.filesRead, FsNode.firstFailure, walkEnd]
  | .lstatFails _, _, _, _ => by
    simp [walk, walkFn, FsNode.filesRead, FsNode.firstFailure, walkEnd]
  | .unreadableDir _, _, _, _ => by
    simp [walk, walkFn, FsNode.filesRead, FsNode.firstFailure, walkEnd]
  | .dir children, r, path, hparse => by
    have hc := walkList_firstFailure env R children r path
      (fun f hf => hparse f (by simpa [FsNode.filesRead] using hf))
    simp [walk, walkFn, hc, FsNode.filesRead, FsNode.firstFailure]
theorem walkList_firstFailure {ρ : Type} (env : Env) (R : RangerImpl ρ) :
    ∀ (l : FsList) (r : ρ) (dir : String),
      (∀ f ∈ l.filesRead dir, ∀ text ∈ f.2, (env.ParseCIDR text).isSome = true) →
      walkList env R r dir l =
        walkEnd
          (((l.filesRead dir).flatMap (fun f => fileEntries env f.1 f.2)).foldl R.Insert r)
          l.firstFailure
  | .nil, r, dir, _ => by simp [walkList, FsList.filesRead, FsList.firstFailure, walkEnd]
  | .cons name node rest, r, dir, hparse => by
    have h1 := walk_firstFailure env R node r (Join dir name)
      (fun f hf => hparse f (by simp [FsList.filesRead, hf]))
    cases hnode : node.firstFailure with
    | some failure =>
      rw [hnode] at h1
      cases failure <;>
        simp [walkList, h1, FsList.filesRead, FsList.firstFailure, hnode, walkEnd]
    | none =>
      rw [hnode] at h1
      have h2 := walkList_firstFailure env R rest
        (((node.filesRead (Join dir name)).flatMap
          (fun f => fileEntries env f.1 f.2)).foldl R.Insert r)
        dir (fun f hf => hparse f (by simp [FsList.filesRead, hnode, hf]))
      simp [walkList, h1, h2, FsList.filesRead, FsList.firstFailure, hnode, walkEnd,
        List.flatMap_append, List.foldl_append]
end

/-- C7, as the code has it, on a tree in which the lines scanned up to the
first failure are CIDR literals. When the first failure, anywhere in the
tree, is an error of the walk (a name that cannot be examined, a directory
that cannot be read), `filepath.Walk` returns that error, and `main` prints
it and reaches `srv.ListenAndServe()` with the entries of the files read up
to then; the index is empty if the root itself fails. When the first
failure is a file that cannot be opened or a read error of the scanner, the
walk does not return: the process ends through `log.Fatal` with exit status
1 and the server is not started. -/
theorem main_after_build_failure {ρ : Type} (env : Env) (R : RangerImpl ρ) (fs : FsNode)
    (hparse : ∀ f ∈ fs.filesRead walkRoot, ∀ text ∈ f.2,
      (env.ParseCIDR text).isSome = true) :
    (∀ err : String, fs.firstFailure = some (.walkError err) →
      Walk env R R.NewPCTrieRanger walkRoot fs =
        .ret (((fs.filesRead walkRoot).flatMap
          (fun f => fileEntries env f.1 f.2)).foldl R.Insert R.NewPCTrieRanger) (some err) ∧
      main env R fs =
        .serving
          { Ranger := ((fs.filesRead walkRoot).flatMap
              (fun f => fileEntries env f.1 f.2)).foldl R.Insert R.NewPCTrieRanger }
          (some err)) ∧
    (∀ err : String, fs.firstFailure = some (.fileError err) →
      Walk env R R.NewPCTrieRanger walkRoot fs =
        .fatal (((fs.filesRead walkRoot).flatMap
          (fun f => fileEntries env f.1 f.2)).foldl R.Insert R.NewPCTrieRanger) err ∧
      main env R fs = .exited 1 err) ∧
    (∀ err : String,
      main env R (.lstatFails err) = .serving { Ranger := R.NewPCTrieRanger } (some err) ∧
      main env R (.unreadableDir err) = .serving { Ranger := R.NewPCTrieRanger } (some err)) := by
  have hwalk := walk_firstFailure env R fs R.NewPCTrieRanger walkRoot hparse
  refine ⟨?_, ?_, ?_⟩
  · intro err hfail
    rw [hfail] at hwalk
    simp only [main, Walk, hwalk, walkEnd, and_self]
  · intro err hfail
    rw [hfail] at hwalk
    simp only [main, Walk, hwalk, walkEnd, and_self]
  · intro err
    simp [main, Walk, walk, walkFn]

/-- C7, on four trees whose failure lies in a subdirectory, after `de.txt`
has been read and before `zz.txt` is reached: a name that cannot be examined
and a directory that cannot be read leave the server started on the entry of
`de.txt`; a file that cannot be opened and a read error of the scanner end
the process with exit status 1. The last two lines evaluate the walk itself
on two of the trees. -/
theorem main_after_build_failure_witness :
    lstatFailureTree.firstFailure =
      some (.walkError "lstat cidr/ipv4/sub/us.txt: permission denied") ∧
    main ipv4Env insertionLog lstatFailureTree =
      .serving
        { Ranger :=
            [.custom { ipNet := { family := .v4, base := 0x01020300, ones := 24 }, country := "de" }] }
        (some "lstat cidr/ipv4/sub/us.txt: permission denied") ∧
    main ipv4Env insertionLog unreadableDirTree =
      .serving
        { Ranger :=
            [.custom { ipNet := { family := .v4, base := 0x01020300, ones := 24 }, country := "de" }] }
        (some "open cidr/ipv4/sub: permission denied") ∧
    main ipv4Env insertionLog openFailureTree =
      .exited 1 "open cidr/ipv4/sub/us.txt: permission denied" ∧
    main ipv4Env insertionLog readFailureTree =
      .exited 1 "read cidr/ipv4/sub/us.txt: input/output error" ∧
    Walk ipv4Env insertionLog [] walkRoot unreadableDirTree =
      .ret
        [.custom { ipNet := { family := .v4, base := 0x01020300, ones := 24 }, country := "de" }]
        (some "open cidr/ipv4/sub: permission denied") ∧
    Walk ipv4Env insertionLog [] walkRoot readFailureTree =
      .fatal
        [.custom { ipNet := { family := .v4, base := 0x01020300, ones := 24 }, country := "de" },
         .custom { ipNet := { family := .v4, base := 0x05060700, ones := 24 }, country := "us" }]
        "read cidr/ipv4/sub/us.txt: input/output error" :=
  ⟨by decide,
    ((main_after_build_failure ipv4Env insertionLog lstatFailureTree (by decide)).1
      "lstat cidr/ipv4/sub/us.txt: permission denied" (by decide)).2.trans (by decide),
    ((main_after_build_failure ipv4Env insertionLog unreadableDirTree (by decide)).1
      "open cidr/ipv4/sub: permission denied" (by decide)).2.trans (by decide),
    ((main_after_build_failure ipv4Env insertionLog openFailureTree (by decide)).2.1
      "open cidr/ipv4/sub/us.txt: permission denied" (by decide)).2,
    ((main_after_build_failure ipv4Env insertionLog readFailureTree (by decide)).2.1
      "read cidr/ipv4/sub/us.txt: input/output error" (by decide)).2,
    by decide, by decide⟩

/-- C7 fails as stated: with the walked directory missing, the walk returns
the error of `os.Lstat`, and `main` starts the server on the empty index. -/
theorem main_serves_empty_index_after_walk_error :
    Walk ipv4Env pcTrieRanger pcTrieRanger.NewPCTrieRanger walkRoot
      (.lstatFails "lstat ./cidr/ipv4: no such file or directory") =
      .ret ContainmentIndex.empty (some "lstat ./cidr/ipv4: no such file or directory") ∧
    main ipv4Env pcTrieRanger (.lstatFails "lstat ./cidr/ipv4: no such file or directory") =
      .serving { Ranger := ContainmentIndex.empty }
        (some "lstat ./cidr/ipv4: no such file or directory") := by
  decide


/-! ## Theorems: the handler -/

/-- C10: when `ContainingNetworks` returns a non-empty list of
`*customRangerEntry` values, `API.Get` marshals a result with status "200"
and a single match, the country and network string of the first entry of
the list, and writes that JSON text to the response, once; the response is
the one a list holding the first entry alone would give, so the remaining
entries do not appear in it. -/
theorem Get_writes_first_entry_only {ρ : Type} (env : Env) (R : RangerImpl ρ) (Api : API ρ)
    (w : ResponseWriter) (ip : String) (entries : List RangerEntry)
    (hfound : R.ContainingNetworks Api.Ranger (env.ParseIP ip) = .ok entries)
    (hne : entries ≠ [])
    (hcustom : ∀ e ∈ entries, ∃ b : customRangerEntry, e = .custom b) :
    ∃ (first : customRangerEntry) (rest : List RangerEntry),
      entries = .custom first :: rest ∧
      (∀ json : String,
        env.Marshal
          { Match := [{ Country := first.Country, Net := first.NetworkStr env }],
            Status := "200" } = .ok json →
        API.Get env R Api w ip = .returned (w.Write json) ∧
        (w.Write json).body = w.body ++ [json]) ∧
      getLoop env w { Match := [], Status := "" } entries =
        getLoop env w { Match := [], Status := "" } [.custom first] := by
  cases entries with
  | nil => exact absurd rfl hne
  | cons e rest =>
    obtain ⟨first, hfirst⟩ := hcustom e (List.mem_cons_self _ _)
    subst hfirst
    refine ⟨first, rest, rfl, ?_, rfl⟩
    intro json hjson
    simp only [API.Get, hfound, getLoop, List.nil_append, hjson, ResponseWriter.Write,
      and_self]

/-- C10, on the nesting example: both stored entries contain `10.1.2.3`, the
text written is that of the result holding the match of `10.0.0.0/8`
alone, and it is written once, with status 200. -/
theorem Get_writes_first_entry_only_witness :
    pcTrieRanger.ContainingNetworks nestedIndex (ipv4Env.ParseIP "10.1.2.3") =
      .ok [entryOf "10.0.0.0/8" "A", entryOf "10.1.0.0/16" "B"] ∧
    ∃ json : String,
      ipv4Env.Marshal
        { Match := [{ Country := "A", Net := "10.0.0.0/8" }], Status := "200" } = .ok json ∧
      API.Get ipv4Env pcTrieRanger { Ranger := nestedIndex } .fresh "10.1.2.3" =
        .returned { status := some 200, body := [json] } := by
  obtain ⟨first, rest, hlist, hwrite, _⟩ :=
    Get_writes_first_entry_only ipv4Env pcTrieRanger { Ranger := nestedIndex } .fresh
      "10.1.2.3" [entryOf "10.0.0.0/8" "A", entryOf "10.1.0.0/16" "B"] (by rfl) (by decide)
      (by
        intro e he
        simp only [List.mem_cons, List.mem_singleton, List.not_mem_nil, or_false] at he
        rcases he with rfl | rfl <;> exact ⟨_, rfl⟩)
  have hfirst : first = ⟨⟨.v4, 0x0A000000, 8⟩, "A"⟩ := by
    have h := (List.cons.inj hlist).1
    exact (RangerEntry.custom.inj h).symm.trans (by decide)
  subst hfirst
  refine ⟨by rfl, _, rfl, ?_⟩
  exact (hwrite _ rfl).1.trans (by decide)

/-- C1: on the index holding `10.0.0.0/8` labelled `A` and `10.1.0.0/16`
labelled `B`, `ContainingNetworks` returns both entries for `10.1.2.3`, but
the response of `API.Get` is the JSON text of a result with the single
match `A`; the entry labelled `B` is not in the response. For `10.2.2.3`
the index returns `A` alone and the response is the same. -/
theorem Get_nested_returns_one_match :
    pcTrieRanger.ContainingNetworks nestedIndex (ipv4Env.ParseIP "10.1.2.3") =
      .ok [entryOf "10.0.0.0/8" "A", entryOf "10.1.0.0/16" "B"] ∧
    pcTrieRanger.ContainingNetworks nestedIndex (ipv4Env.ParseIP "10.2.2.3") =
      .ok [entryOf "10.0.0.0/8" "A"] ∧
    (∃ json : String,
      ipv4Env.Marshal { Match := [{ Country := "A", Net := "10.0.0.0/8" }], Status := "200" } =
        .ok json ∧
      API.Get ipv4Env pcTrieRanger { Ranger := nestedIndex } .fresh "10.1.2.3" =
        .returned { status := some 200, body := [json] } ∧
      API.Get ipv4Env pcTrieRanger { Ranger := nestedIndex } .fresh "10.2.2.3" =
        .returned { status := some 200, body := [json] }) ∧
    (∀ json : String,
      ipv4Env.Marshal
        { Match := [{ Country := "A", Net := "10.0.0.0/8" },
            { Country := "B", Net := "10.1.0.0/16" }], Status := "200" } = .ok json →
      API.Get ipv4Env pcTrieRanger { Ranger := nestedIndex } .fresh "10.1.2.3" ≠
        .returned { status := some 200, body := [json] }) := by
  refine ⟨by rfl, by rfl, ⟨_, rfl, by decide, by decide⟩, ?_⟩
  intro json hjson
  have hj : json = _ := (Except.ok.inj hjson).symm
  subst hj
  decide

/-- C5: when `ContainingNetworks` returns the empty list and no error,
`API.Get` returns with the response writer untouched: no match is written,
no status is set, and the process goes on. -/
theorem Get_no_match {ρ : Type} (env : Env) (R : RangerImpl ρ) (Api : API ρ)
    (w : ResponseWriter) (ip : String)
    (hfound : R.ContainingNetworks Api.Ranger (env.ParseIP ip) = .ok []) :
    API.Get env R Api w ip = .returned w := by
  simp only [API.Get, hfound, getLoop]

/-- C5, on the nesting example and an address outside `10.0.0.0/8`. -/
theorem Get_no_match_witness :
    pcTrieRanger.ContainingNetworks nestedIndex (ipv4Env.ParseIP "11.1.2.3") = .ok [] ∧
    API.Get ipv4Env pcTrieRanger { Ranger := nestedIndex } .fresh "11.1.2.3" =
      .returned { status := none, body := [] } :=
  ⟨by rfl, Get_no_match ipv4Env pcTrieRanger { Ranger := nestedIndex } .fresh "11.1.2.3" (by rfl)⟩

/-- C4, as the code has it: for a query string that `net.ParseIP` rejects,
`API.Get` hands the nil address to `ContainingNetworks`; when that fails
with an error, the error is printed and the process ends with exit status 1,
the response writer being at that point as the handler received it: nothing
is written to the response, no status and no body. The index of the spec
fails in this way on the nil address, in every state. -/
theorem Get_invalid_address_exits {ρ : Type} (env : Env) (R : RangerImpl ρ) (Api : API ρ)
    (w : ResponseWriter) (ip : String) (err : String)
    (hinvalid : env.ParseIP ip = none)
    (hrejected : R.ContainingNetworks Api.Ranger none = .error err) :
    API.Get env R Api w ip = .exited w 1 ("Api.Ranger.Contains() " ++ err ++ "\n") ∧
    (∀ w' : ResponseWriter, API.Get env R Api w ip ≠ .returned w') ∧
    ∀ idx : ContainmentIndex,
      API.Get env pcTrieRanger { Ranger := idx } w ip =
        .exited w 1 "Api.Ranger.Contains() invalid address\n" := by
  have hexit : API.Get env R Api w ip =
      .exited w 1 ("Api.Ranger.Contains() " ++ err ++ "\n") := by
    simp only [API.Get, hinvalid, hrejected]
  refine ⟨hexit, ?_, ?_⟩
  · intro w' h
    rw [hexit] at h
    exact Outcome.noConfusion h
  · intro idx
    simp only [API.Get, hinvalid, pcTrieRanger, ContainmentIndex.containingNetworks]
    rfl

/-- C4, on the text `10.1.2` and the nesting example: the process ends with
the response writer still empty. -/
theorem Get_invalid_address_exits_witness :
    ipv4Env.ParseIP "10.1.2" = none ∧
    pcTrieRanger.ContainingNetworks nestedIndex none = .error "invalid address" ∧
    API.Get ipv4Env pcTrieRanger { Ranger := nestedIndex } { status := none, body := [] }
        "10.1.2" =
      .exited { status := none, body := [] } 1
        ("Api.Ranger.Contains() " ++ "invalid address" ++ "\n") :=
  ⟨by decide, by rfl,
    (Get_invalid_address_exits ipv4Env pcTrieRanger { Ranger := nestedIndex }
      { status := none, body := [] } "10.1.2" "invalid address" (by decide) (by rfl)).1⟩

/-- C4 fails as stated: the query string `10.1.2` is not an IP address, and
`API.Get` ends the process with exit status 1, the response still empty,
instead of returning with an error response. -/
theorem Get_invalid_address_terminates :
    ipv4Env.ParseIP "10.1.2" = none ∧
    API.Get ipv4Env pcTrieRanger { Ranger := nestedIndex } .fresh "10.1.2" =
      .exited { status := none, body := [] } 1 "Api.Ranger.Contains() invalid address\n" ∧
    ∀ w : ResponseWriter,
      API.Get ipv4Env pcTrieRanger { Ranger := nestedIndex } .fresh "10.1.2" ≠ .returned w := by
  refine ⟨by decide, by decide, ?_⟩
  intro w h
  have h2 : API.Get ipv4Env pcTrieRanger { Ranger := nestedIndex } .fresh "10.1.2" =
      .exited .fresh 1 "Api.Ranger.Contains() invalid address\n" := by decide
  rw [h2] at h
  exact Outcome.noConfusion h

end CidrCountry
